import Mathlib

/-!
Verification of `src/dijkstras_shortest_path.py`.

Shallow embedding conventions:
* A Python node object is identified by its (unique) `name : String`; the
  `Network` keeps the list of node names in insertion order together with
  the list of `Arc`s in insertion order.
* During a search every node carries a mutable `value = [tentative_distance,
  predecessor]` pair.  The heap of node objects is embedded as a total
  function `SearchState : String → WithTop ℚ × Option String`; `value[0]`
  is the first component (Python `float`, with `float('inf')` embedded as
  `⊤`) and `value[1]` the second.
* `node.arcs_out` is, for a graph built through `Network.add_arc`, exactly
  the sublist of the graph's arcs whose `from_node` is that node, in
  insertion order; the embedding derives it by `List.filter`.
* The iteration order of the Python set `unvisited` is unspecified; the
  embedding models the set as a `List String` and Python's
  `min(unvisited, key=...)` as the first element attaining the minimal key
  in list order.
-/

namespace DijkstraSP

/-- Directed weighted arc; models class `Arc` (fields `weight`, `from_node`,
`to_node`, with the endpoint node objects represented by their names). -/
structure Arc where
  weight : ℚ
  from_node : String
  to_node : String
deriving DecidableEq

/-- Models class `Network`: the list of node names (class `Node` objects are
identified by their unique names) and the list of arcs, both in insertion
order. -/
structure Network where
  nodes : List String
  arcs : List Arc
deriving DecidableEq

/-- Per-search mutable node state: `n ↦ (value[0], value[1])`, i.e. the
tentative distance (`⊤` = `float('inf')`) and the optional predecessor name. -/
def SearchState : Type := String → WithTop ℚ × Option String

/-- Component `value[0]` of the node named `n`. -/
def dist (σ : SearchState) (n : String) : WithTop ℚ := (σ n).1

/-- Component `value[1]` of the node named `n`. -/
def pred (σ : SearchState) (n : String) : Option String := (σ n).2

/-- Models `Network.get_node` (lines 210-230): linear scan for the first node
with the given name, `None` when absent.  Node objects being identified with
their names, the scan returns the name itself exactly when it occurs. -/
def get_node (g : Network) (name : String) : Option String :=
  g.nodes.find? (fun n => n = name)

/-- Models `node.arcs_out` for the node named `name`, as produced by
`Network.add_arc` (lines 247-266): the arcs of the network whose
`from_node` is this node, in insertion order. -/
def arcs_out (g : Network) (name : String) : List Arc :=
  g.arcs.filter (fun a => a.from_node = name)

/-- Models line 24, `min(unvisited, key=lambda node:
network.get_node(node).value[0])`: the first element of the list attaining
the minimal tentative distance (`none` on the empty list, where Python's
`min` raises `ValueError`). -/
def min_by_dist (σ : SearchState) : List String → Option String
  | [] => none
  | x :: xs => some (xs.foldl (fun best n => if dist σ n < dist σ best then n else best) x)

/-- Models the body of the `for arc in solved_node.arcs_out` loop
(lines 35-48): `dist_sum = arc.weight + arc.from_node.value[0]`; when
`dist_sum < arc.to_node.value[0]` the target node's value becomes
`[dist_sum, solved_node.name]`, otherwise nothing changes. -/
def relax_arc (solved_name : String) (σ : SearchState) (a : Arc) : SearchState :=
  let dist_sum : WithTop ℚ := (a.weight : ℚ) + dist σ a.from_node
  if dist_sum < dist σ a.to_node then
    fun n => if n = a.to_node then (dist_sum, some solved_name) else σ n
  else σ

/-- The whole `for` loop of lines 35-48, processing the arcs in order. -/
def relax_arcs (solved_name : String) (σ : SearchState) (arcs : List Arc) : SearchState :=
  arcs.foldl (relax_arc solved_name) σ

/-- Models `spath_iteration` (lines 5-50).  When `unvisited` is empty the
`while` guard fails and the function falls through returning `None`.
Otherwise `min` never raises (the `except ValueError` branch of lines 25-26
is dead code, as `min` only raises on an empty iterable), so the minimal
node is removed from the unvisited set, all its outgoing arcs are relaxed
and its name is returned.  Returns (solved name, new state, new unvisited). -/
def spath_iteration (g : Network) (σ : SearchState) (unvisited : List String) :
    Option String × SearchState × List String :=
  match min_by_dist σ unvisited with
  | none => (none, σ, unvisited)
  | some solved_name =>
      (some solved_name,
       relax_arcs solved_name σ (arcs_out g solved_name),
       unvisited.erase solved_name)

/-- Modelled from the spec: `spath_algorithm` (line 111) calls
`spath_initialise`, which is not defined anywhere in the source file.
Spec section 4.4 phase 1 describes it: "reset all nodes'
`tentative_distance` to +infinity and `predecessor` to none, except the
source node whose `tentative_distance` is set to 0; build the unvisited
set = all node names".  Returns (initial state, initial unvisited set). -/
def spath_initialise (g : Network) (source_name : String) : SearchState × List String :=
  (fun n => (if n = source_name then (0 : WithTop ℚ) else ⊤, none), g.nodes)

/-- The predecessor-chasing `while` loop of `spath_extract_path`
(lines 76-81), with explicit fuel: follow `value[1]` links, appending each
predecessor name to `path`.  (On a cyclic predecessor chain the Python loop
would not terminate; every state reached by the algorithm on non-negative
weights that we reason about has `value[1] = None` chains, so the fuel is
never exhausted in the claims below.) -/
def spath_extract_go (σ : SearchState) : Nat → String → List String → List String
  | 0, _, path => path
  | fuel + 1, current, path =>
    match pred σ current with
    | none => path
    | some predecessor_name =>
        spath_extract_go σ fuel predecessor_name (path ++ [predecessor_name])

/-- Models `spath_extract_path` (lines 53-88): collect the predecessor chain
from the destination, reverse it, and append the destination name. -/
def spath_extract_path (g : Network) (σ : SearchState) (destination_name : String) :
    List String :=
  (spath_extract_go σ (g.nodes.length + 1) destination_name []).reverse ++ [destination_name]

/-- The iteration loop of `spath_algorithm` (lines 113-121), with explicit
fuel: call `spath_iteration`; stop with `None` when no node was solved,
stop successfully when the solved node is the destination, otherwise
repeat.  Fuel `g.nodes.length + 1` always suffices (each successful
iteration removes one element of `unvisited`), so the fuel-0 branch is
unreachable from `spath_algorithm`. -/
def spath_loop (g : Network) (destination_name : String) :
    Nat → SearchState → List String → Option String × SearchState
  | 0, σ, _ => (none, σ)
  | fuel + 1, σ, unvisited =>
    match spath_iteration g σ unvisited with
    | (none, σ', _) => (none, σ')
    | (some solved, σ', unvisited') =>
        if solved = destination_name then (some solved, σ')
        else spath_loop g destination_name fuel σ' unvisited'

/-- Models `spath_algorithm` (lines 91-132), with `spath_initialise`
modelled from the spec (see `spath_initialise`).  On failure both results
are `None` (lines 123-125); on success the distance is the destination
node's `value[0]` and the path is `spath_extract_path` (lines 126-130). -/
def spath_algorithm (g : Network) (source_name destination_name : String) :
    Option (WithTop ℚ) × Option (List String) :=
  match spath_loop g destination_name (g.nodes.length + 1)
      (spath_initialise g source_name).1 (spath_initialise g source_name).2 with
  | (none, _) => (none, none)
  | (some _, σ) =>
      (some (dist σ destination_name), some (spath_extract_path g σ destination_name))

/-- Specification side: `IsPath g s p d` holds when the arc list `p` is a directed
path in `g` from node `s` to node `d`: consecutive arcs are chained, every
arc belongs to the graph, the first leaves `s` and the last enters `d`
(the empty path requiring `s = d`). -/
def IsPath (g : Network) : String → List Arc → String → Prop
  | s, [], d => s = d
  | s, a :: p, d => a ∈ g.arcs ∧ a.from_node = s ∧ IsPath g a.to_node p d

/-- Total weight of a path. -/
def pathWeight : List Arc → ℚ
  | [] => 0
  | a :: p => a.weight + pathWeight p

instance IsPath.instDecidable (g : Network) :
    ∀ (s : String) (p : List Arc) (d : String), Decidable (IsPath g s p d)
  | s, [], d => decidable_of_iff (s = d) Iff.rfl
  | s, a :: p, d =>
    haveI : Decidable (IsPath g a.to_node p d) := IsPath.instDecidable g a.to_node p d
    decidable_of_iff (a ∈ g.arcs ∧ a.from_node = s ∧ IsPath g a.to_node p d) Iff.rfl

/-! ### Basic lemmas about single-arc relaxation -/

theorem relax_arc_of_lt {σ : SearchState} {a : Arc} {m : String}
    (h : (a.weight : WithTop ℚ) + dist σ a.from_node < dist σ a.to_node) :
    relax_arc m σ a =
      fun n => if n = a.to_node
        then ((a.weight : WithTop ℚ) + dist σ a.from_node, some m) else σ n := by
  simp only [relax_arc, if_pos h]

theorem relax_arc_of_not_lt {σ : SearchState} {a : Arc} {m : String}
    (h : ¬ (a.weight : WithTop ℚ) + dist σ a.from_node < dist σ a.to_node) :
    relax_arc m σ a = σ := by
  simp only [relax_arc, if_neg h]

theorem relax_arc_apply_ne {σ : SearchState} {a : Arc} {m n : String}
    (h : n ≠ a.to_node) : relax_arc m σ a n = σ n := by
  by_cases hlt : (a.weight : WithTop ℚ) + dist σ a.from_node < dist σ a.to_node
  · rw [relax_arc_of_lt hlt]; simp [h]
  · rw [relax_arc_of_not_lt hlt]

theorem relax_arc_apply_to_of_lt {σ : SearchState} {a : Arc} {m : String}
    (h : (a.weight : WithTop ℚ) + dist σ a.from_node < dist σ a.to_node) :
    relax_arc m σ a a.to_node = ((a.weight : WithTop ℚ) + dist σ a.from_node, some m) := by
  rw [relax_arc_of_lt h]; simp

theorem relax_arc_dist_to_of_lt {σ : SearchState} {a : Arc} {m : String}
    (h : (a.weight : WithTop ℚ) + dist σ a.from_node < dist σ a.to_node) :
    dist (relax_arc m σ a) a.to_node = (a.weight : WithTop ℚ) + dist σ a.from_node :=
  congrArg Prod.fst (relax_arc_apply_to_of_lt h)

theorem relax_arc_dist_le (σ : SearchState) (a : Arc) (m n : String) :
    dist (relax_arc m σ a) n ≤ dist σ n := by
  by_cases hlt : (a.weight : WithTop ℚ) + dist σ a.from_node < dist σ a.to_node
  · rw [relax_arc_of_lt hlt]
    by_cases hn : n = a.to_node
    · subst hn; simp only [dist, if_pos rfl]; exact le_of_lt hlt
    · simp only [dist, if_neg hn]; exact le_rfl
  · rw [relax_arc_of_not_lt hlt]

/-- If a node already has distance at most the solved node's distance,
relaxing one arc out of the solved node (of non-negative weight) leaves the
node's whole value unchanged. -/
theorem dist_congr {σ τ : SearchState} {n : String} (h : σ n = τ n) :
    dist σ n = dist τ n := congrArg Prod.fst h

theorem relax_arc_frozen {σ : SearchState} {a : Arc} {m x : String}
    (hfrom : a.from_node = m) (hw : 0 ≤ a.weight)
    (hx : dist σ x ≤ dist σ m) : relax_arc m σ a x = σ x := by
  by_cases hn : x = a.to_node
  · have hge : dist σ m ≤ (a.weight : WithTop ℚ) + dist σ a.from_node := by
      rw [hfrom]
      exact le_add_of_nonneg_left (by exact_mod_cast hw)
    have hx' : dist σ a.to_node ≤ dist σ m := hn ▸ hx
    have hnl : ¬ (a.weight : WithTop ℚ) + dist σ a.from_node < dist σ a.to_node :=
      not_lt.mpr (le_trans hx' hge)
    rw [relax_arc_of_not_lt hnl]
  · exact relax_arc_apply_ne hn

/-- A relaxation from a solved node of non-negative weight never drops any
distance below the solved node's distance. -/
theorem relax_arc_dist_lower {σ : SearchState} {a : Arc} {m : String}
    (hfrom : a.from_node = m) (hw : 0 ≤ a.weight) {n : String}
    (hn : dist σ m ≤ dist σ n) : dist σ m ≤ dist (relax_arc m σ a) n := by
  by_cases hlt : (a.weight : WithTop ℚ) + dist σ a.from_node < dist σ a.to_node
  · rw [relax_arc_of_lt hlt]
    by_cases hx : n = a.to_node
    · subst hx
      simp only [dist, if_pos rfl]
      rw [hfrom]
      exact le_add_of_nonneg_left (by exact_mod_cast hw)
    · simp only [dist, if_neg hx]; exact hn
  · rw [relax_arc_of_not_lt hlt]; exact hn

/-! ### Lemmas about the relaxation loop -/

theorem relax_arcs_nil (m : String) (σ : SearchState) : relax_arcs m σ [] = σ := rfl

theorem relax_arcs_cons (m : String) (σ : SearchState) (a : Arc) (l : List Arc) :
    relax_arcs m σ (a :: l) = relax_arcs m (relax_arc m σ a) l := rfl

theorem relax_arcs_dist_le (m : String) (σ : SearchState) (l : List Arc) (n : String) :
    dist (relax_arcs m σ l) n ≤ dist σ n := by
  induction l generalizing σ with
  | nil => exact le_rfl
  | cons a l ih =>
      rw [relax_arcs_cons]
      exact le_trans (ih (relax_arc m σ a)) (relax_arc_dist_le σ a m n)

/-- Relaxing the out-arcs of a solved node of minimal distance leaves every
node whose distance is at most the solved node's distance untouched
(in particular the solved node itself). -/
theorem relax_arcs_frozen {m : String} {l : List Arc}
    (hl : ∀ a ∈ l, a.from_node = m ∧ 0 ≤ a.weight) :
    ∀ (σ : SearchState) (x : String), dist σ x ≤ dist σ m → relax_arcs m σ l x = σ x := by
  induction l with
  | nil => intro σ x _; rfl
  | cons a l ih =>
      intro σ x hx
      obtain ⟨hfrom, hw⟩ := hl a (List.mem_cons_self a l)
      have hm : relax_arc m σ a m = σ m := relax_arc_frozen hfrom hw le_rfl
      have hxa : relax_arc m σ a x = σ x := relax_arc_frozen hfrom hw hx
      rw [relax_arcs_cons]
      have := ih (fun b hb => hl b (List.mem_cons_of_mem a hb)) (relax_arc m σ a) x
        (by rw [dist_congr hxa, dist_congr hm]; exact hx)
      rw [this, hxa]

theorem relax_arcs_dist_lower {m : String} {l : List Arc}
    (hl : ∀ a ∈ l, a.from_node = m ∧ 0 ≤ a.weight) :
    ∀ (σ : SearchState) (n : String), dist σ m ≤ dist σ n →
      dist σ m ≤ dist (relax_arcs m σ l) n := by
  induction l with
  | nil => intro σ n hn; exact hn
  | cons a l ih =>
      intro σ n hn
      obtain ⟨hfrom, hw⟩ := hl a (List.mem_cons_self a l)
      have hm : relax_arc m σ a m = σ m := relax_arc_frozen hfrom hw le_rfl
      have hdm : dist (relax_arc m σ a) m = dist σ m := dist_congr hm
      have h1 : dist σ m ≤ dist (relax_arc m σ a) n := relax_arc_dist_lower hfrom hw hn
      rw [relax_arcs_cons]
      have h3 := ih (fun b hb => hl b (List.mem_cons_of_mem a hb)) (relax_arc m σ a) n
        (by rw [hdm]; exact h1)
      rw [hdm] at h3
      exact h3

/-- After the relaxation loop, every arc that was processed satisfies the
relaxation inequality with respect to the solved node's (unchanged) distance. -/
theorem relax_arcs_relaxed {m : String} {l : List Arc}
    (hl : ∀ a ∈ l, a.from_node = m ∧ 0 ≤ a.weight) :
    ∀ (σ : SearchState), ∀ a ∈ l,
      dist (relax_arcs m σ l) a.to_node ≤ (a.weight : WithTop ℚ) + dist σ m := by
  induction l with
  | nil => intro σ a ha; exact absurd ha (List.not_mem_nil a)
  | cons b l ih =>
      intro σ a ha
      obtain ⟨hbfrom, hbw⟩ := hl b (List.mem_cons_self b l)
      have hbm : relax_arc m σ b m = σ m := relax_arc_frozen hbfrom hbw le_rfl
      have hdm : dist (relax_arc m σ b) m = dist σ m := dist_congr hbm
      rw [relax_arcs_cons]
      rcases List.mem_cons.mp ha with rfl | ha'
      · -- the arc processed first: it is relaxed there, later steps only decrease
        have h0 : dist (relax_arc m σ a) a.to_node ≤ (a.weight : WithTop ℚ) + dist σ m := by
          by_cases hlt : (a.weight : WithTop ℚ) + dist σ a.from_node < dist σ a.to_node
          · rw [relax_arc_dist_to_of_lt hlt, hbfrom]
          · rw [relax_arc_of_not_lt hlt]
            rw [hbfrom] at hlt
            exact not_lt.mp hlt
        exact le_trans (relax_arcs_dist_le m (relax_arc m σ a) l a.to_node) h0
      · have := ih (fun c hc => hl c (List.mem_cons_of_mem b hc)) (relax_arc m σ b) a ha'
        rw [hdm] at this
        exact this

/-! ### Paths -/

theorem IsPath_nil {g : Network} {s d : String} : IsPath g s [] d ↔ s = d := Iff.rfl

theorem IsPath_cons {g : Network} {s d : String} {a : Arc} {p : List Arc} :
    IsPath g s (a :: p) d ↔ a ∈ g.arcs ∧ a.from_node = s ∧ IsPath g a.to_node p d := Iff.rfl

theorem pathWeight_append (p q : List Arc) :
    pathWeight (p ++ q) = pathWeight p + pathWeight q := by
  induction p with
  | nil => simp [pathWeight]
  | cons a p ih => simp [pathWeight, ih, add_assoc]

theorem IsPath_append_arc {g : Network} {s m : String} {p : List Arc} {a : Arc}
    (hp : IsPath g s p m) (ha : a ∈ g.arcs) (hfrom : a.from_node = m) :
    IsPath g s (p ++ [a]) a.to_node := by
  induction p generalizing s with
  | nil =>
      rw [IsPath_nil] at hp
      subst hp
      exact ⟨ha, hfrom, rfl⟩
  | cons b p ih =>
      obtain ⟨hb, hbfrom, hrest⟩ := hp
      exact ⟨hb, hbfrom, ih hrest⟩

/-- Every path has non-negative total weight when all the graph's arcs do. -/
theorem pathWeight_nonneg {g : Network} (hw : ∀ a ∈ g.arcs, 0 ≤ a.weight) :
    ∀ {s d : String} {p : List Arc}, IsPath g s p d → 0 ≤ pathWeight p := by
  intro s d p
  induction p generalizing s with
  | nil => intro _; simp [pathWeight]
  | cons a p ih =>
      intro hp
      obtain ⟨ha, _, hrest⟩ := hp
      have := ih hrest
      have hwa := hw a ha
      simp only [pathWeight]
      positivity

/-- Relaxation preserves the fact that every finite recorded distance is the
weight of an actual path from the source. -/
theorem relax_arcs_reach {g : Network} {s m : String} {l : List Arc}
    (hl : ∀ a ∈ l, a ∈ g.arcs ∧ a.from_node = m) :
    ∀ (σ : SearchState),
      (∀ n, dist σ n ≠ ⊤ → ∃ p, IsPath g s p n ∧ (pathWeight p : WithTop ℚ) = dist σ n) →
      ∀ n, dist (relax_arcs m σ l) n ≠ ⊤ →
        ∃ p, IsPath g s p n ∧ (pathWeight p : WithTop ℚ) = dist (relax_arcs m σ l) n := by
  induction l with
  | nil => intro σ hσ n; exact hσ n
  | cons a l ih =>
      intro σ hσ n
      obtain ⟨hag, hafrom⟩ := hl a (List.mem_cons_self a l)
      refine ih (fun b hb => hl b (List.mem_cons_of_mem a hb)) (relax_arc m σ a) ?_ n
      intro x hx
      by_cases hxa : x = a.to_node
      · subst hxa
        by_cases hlt : (a.weight : WithTop ℚ) + dist σ a.from_node < dist σ a.to_node
        · rw [relax_arc_dist_to_of_lt hlt] at hx ⊢
          have hm : dist σ a.from_node ≠ ⊤ := by
            intro htop
            rw [htop, WithTop.add_top] at hx
            exact hx rfl
          obtain ⟨p, hp, hpw⟩ := hσ a.from_node hm
          refine ⟨p ++ [a], IsPath_append_arc hp hag rfl, ?_⟩
          rw [pathWeight_append]
          push_cast
          rw [hpw]
          simp [pathWeight, add_comm]
        · rw [relax_arc_of_not_lt hlt] at hx ⊢
          exact hσ _ hx
      · rw [dist_congr (relax_arc_apply_ne hxa)] at hx ⊢
        exact hσ x hx

/-! ### Lemmas about the argmin selection -/

theorem min_by_dist_eq_none {σ : SearchState} {u : List String} :
    min_by_dist σ u = none ↔ u = [] := by
  cases u with
  | nil => simp [min_by_dist]
  | cons x xs => simp [min_by_dist]

theorem min_fold_mem (σ : SearchState) :
    ∀ (xs : List String) (b : String),
      xs.foldl (fun best n => if dist σ n < dist σ best then n else best) b ∈ b :: xs := by
  intro xs
  induction xs with
  | nil => intro b; simp
  | cons n xs ih =>
      intro b
      simp only [List.foldl_cons]
      by_cases hlt : dist σ n < dist σ b
      · rw [if_pos hlt]
        rcases List.mem_cons.mp (ih n) with h | h
        · rw [h]; exact List.mem_cons_of_mem b (List.mem_cons_self n xs)
        · exact List.mem_cons_of_mem b (List.mem_cons_of_mem n h)
      · rw [if_neg hlt]
        rcases List.mem_cons.mp (ih b) with h | h
        · rw [h]; exact List.mem_cons_self b (n :: xs)
        · exact List.mem_cons_of_mem b (List.mem_cons_of_mem n h)

theorem min_fold_le (σ : SearchState) :
    ∀ (xs : List String) (b : String) (y : String), y ∈ b :: xs →
      dist σ (xs.foldl (fun best n => if dist σ n < dist σ best then n else best) b) ≤ dist σ y := by
  intro xs
  induction xs with
  | nil =>
      intro b y hy
      rcases List.mem_cons.mp hy with rfl | h
      · exact le_rfl
      · exact absurd h (List.not_mem_nil y)
  | cons n xs ih =>
      intro b y hy
      simp only [List.foldl_cons]
      have hstep : dist σ (if dist σ n < dist σ b then n else b) ≤ dist σ b ∧
          dist σ (if dist σ n < dist σ b then n else b) ≤ dist σ n := by
        by_cases hlt : dist σ n < dist σ b
        · rw [if_pos hlt]; exact ⟨le_of_lt hlt, le_rfl⟩
        · rw [if_neg hlt]; exact ⟨le_rfl, not_lt.mp hlt⟩
      rcases List.mem_cons.mp hy with rfl | h
      · exact le_trans (ih _ _ (List.mem_cons_self _ xs)) hstep.1
      · rcases List.mem_cons.mp h with rfl | h'
        · exact le_trans (ih _ _ (List.mem_cons_self _ xs)) hstep.2
        · exact ih _ y (List.mem_cons_of_mem _ h')

theorem min_by_dist_mem {σ : SearchState} {u : List String} {m : String}
    (h : min_by_dist σ u = some m) : m ∈ u := by
  cases u with
  | nil => simp [min_by_dist] at h
  | cons x xs =>
      simp only [min_by_dist, Option.some.injEq] at h
      have := min_fold_mem σ xs x
      rw [h] at this
      exact this

theorem min_by_dist_le {σ : SearchState} {u : List String} {m : String}
    (h : min_by_dist σ u = some m) : ∀ y ∈ u, dist σ m ≤ dist σ y := by
  cases u with
  | nil => simp [min_by_dist] at h
  | cons x xs =>
      simp only [min_by_dist, Option.some.injEq] at h
      intro y hy
      have := min_fold_le σ xs x y hy
      rw [h] at this
      exact this

theorem min_fold_fixed (σ : SearchState) :
    ∀ (xs : List String) (b : String), (∀ z ∈ xs, ¬ dist σ z < dist σ b) →
      xs.foldl (fun best n => if dist σ n < dist σ best then n else best) b = b := by
  intro xs
  induction xs with
  | nil => intro b _; rfl
  | cons n xs ih =>
      intro b hb
      simp only [List.foldl_cons]
      rw [if_neg (hb n (List.mem_cons_self n xs))]
      exact ih b (fun z hz => hb z (List.mem_cons_of_mem n hz))

/-- When `y` is the strict minimum of the list, Python's `min` returns it
whatever the iteration order (stated for the embedding's list order). -/
theorem min_by_dist_strict {σ : SearchState} {u : List String} {y : String}
    (hy : y ∈ u) (hlt : ∀ z ∈ u, z ≠ y → dist σ y < dist σ z) :
    min_by_dist σ u = some y := by
  cases u with
  | nil => exact absurd hy (List.not_mem_nil y)
  | cons x xs =>
      have hrmem := min_fold_mem σ xs x
      have hrle := min_fold_le σ xs x y hy
      by_cases hry : xs.foldl (fun best n => if dist σ n < dist σ best then n else best) x = y
      · simp only [min_by_dist, Option.some.injEq]
        exact hry
      · exact absurd hrle (not_le.mpr (hlt _ hrmem hry))

/-! ### Lemmas about one iteration -/

theorem arcs_out_spec {g : Network} {m : String} :
    ∀ a ∈ arcs_out g m, a ∈ g.arcs ∧ a.from_node = m := by
  intro a ha
  have h := List.mem_filter.mp ha
  exact ⟨h.1, by simpa using h.2⟩

theorem mem_arcs_out {g : Network} {m : String} {a : Arc}
    (ha : a ∈ g.arcs) (hf : a.from_node = m) : a ∈ arcs_out g m :=
  List.mem_filter.mpr ⟨ha, by simp [hf]⟩

theorem spath_iteration_nil (g : Network) (σ : SearchState) :
    spath_iteration g σ [] = (none, σ, []) := rfl

theorem spath_iteration_of_min {g : Network} {σ : SearchState} {u : List String} {m : String}
    (h : min_by_dist σ u = some m) :
    spath_iteration g σ u = (some m, relax_arcs m σ (arcs_out g m), u.erase m) := by
  simp [spath_iteration, h]

theorem spath_iteration_of_none {g : Network} {σ : SearchState} {u : List String}
    (h : min_by_dist σ u = none) : spath_iteration g σ u = (none, σ, u) := by
  simp [spath_iteration, h]

/-- A successful iteration always returns the minimal unvisited node and
removes exactly it; it happens if and only if the unvisited set is nonempty. -/
theorem spath_iteration_some_iff {g : Network} {σ : SearchState} {u : List String} :
    (spath_iteration g σ u).1.isSome ↔ u ≠ [] := by
  cases h : min_by_dist σ u with
  | none =>
      rw [min_by_dist_eq_none] at h
      subst h
      simp [spath_iteration_nil]
  | some m =>
      rw [spath_iteration_of_min h]
      have := min_by_dist_mem h
      simp only [Option.isSome_some, true_iff]
      intro hnil
      rw [hnil] at this
      exact List.not_mem_nil m this

/-! ### The Dijkstra invariant -/

/-- The invariant maintained by `spath_iteration` (with the spec-modelled
initial state) over a graph with non-negative weights: `u` is the current
unvisited set, the "solved" nodes being the graph nodes outside `u`.
* `nodup`/`sub`: the unvisited set has no duplicates and holds node names;
* `src`: the source's recorded distance never exceeds 0;
* `reach`: every finite recorded distance is realised by an actual path;
* `solved_min`: solved nodes' distances are below all unvisited ones;
* `solved_relaxed`: arcs out of solved nodes are fully relaxed;
* `solved_opt`: solved nodes' distances are lower bounds on all path weights. -/
structure Inv (g : Network) (s : String) (σ : SearchState) (u : List String) : Prop where
  nodup : u.Nodup
  sub : ∀ n ∈ u, n ∈ g.nodes
  src : dist σ s ≤ 0
  reach : ∀ n, dist σ n ≠ ⊤ → ∃ p, IsPath g s p n ∧ (pathWeight p : WithTop ℚ) = dist σ n
  solved_min : ∀ x ∈ g.nodes, x ∉ u → ∀ y ∈ u, dist σ x ≤ dist σ y
  solved_relaxed : ∀ x ∈ g.nodes, x ∉ u → ∀ a ∈ g.arcs, a.from_node = x →
    dist σ a.to_node ≤ (a.weight : WithTop ℚ) + dist σ x
  solved_opt : ∀ x ∈ g.nodes, x ∉ u → ∀ p, IsPath g s p x →
    dist σ x ≤ (pathWeight p : WithTop ℚ)

theorem dist_initialise_self (g : Network) (s : String) :
    dist (spath_initialise g s).1 s = 0 := by
  simp [spath_initialise, dist]

theorem dist_initialise_ne (g : Network) {s n : String} (h : n ≠ s) :
    dist (spath_initialise g s).1 n = ⊤ := by
  simp [spath_initialise, dist, h]

theorem Inv_init (g : Network) (s : String) (hnd : g.nodes.Nodup) :
    Inv g s (spath_initialise g s).1 (spath_initialise g s).2 := by
  refine ⟨hnd, fun n hn => hn, ?_, ?_, ?_, ?_, ?_⟩
  · rw [dist_initialise_self]
  · intro n hn
    by_cases hns : n = s
    · subst hns
      refine ⟨[], rfl, ?_⟩
      rw [dist_initialise_self]
      simp [pathWeight]
    · exact absurd (dist_initialise_ne g hns) hn
  · intro x hx hxu
    exact absurd hx hxu
  · intro x hx hxu
    exact absurd hx hxu
  · intro x hx hxu
    exact absurd hx hxu

/-- The crossing argument: walking any path forward, with `m` the minimal
unvisited node, the accumulated weight always dominates either `m`'s
distance or the distance of the vertex reached so far. -/
theorem crossing_aux {g : Network} {s m : String} {σ : SearchState} {u : List String}
    (hw : ∀ a ∈ g.arcs, 0 ≤ a.weight)
    (hwf : ∀ a ∈ g.arcs, a.from_node ∈ g.nodes)
    (hInv : Inv g s σ u) (hmin : min_by_dist σ u = some m) :
    ∀ (p : List Arc) (x n : String) (C : ℚ), IsPath g x p n →
      (dist σ m ≤ (C : WithTop ℚ) ∨ dist σ x ≤ (C : WithTop ℚ)) →
      dist σ m ≤ ((C + pathWeight p : ℚ) : WithTop ℚ) ∨
        dist σ n ≤ ((C + pathWeight p : ℚ) : WithTop ℚ) := by
  intro p
  induction p with
  | nil =>
      intro x n C hp hC
      rw [IsPath_nil] at hp
      subst hp
      simpa [pathWeight] using hC
  | cons a p ih =>
      intro x n C hp hC
      obtain ⟨hag, hfrom, hrest⟩ := hp
      have hw0 : 0 ≤ a.weight := hw a hag
      have hstep : dist σ m ≤ ((C + a.weight : ℚ) : WithTop ℚ) ∨
          dist σ a.to_node ≤ ((C + a.weight : ℚ) : WithTop ℚ) := by
        have hCle : ((C : ℚ) : WithTop ℚ) ≤ ((C + a.weight : ℚ) : WithTop ℚ) := by
          exact_mod_cast le_add_of_nonneg_right hw0
        rcases hC with hC | hC
        · exact Or.inl (le_trans hC hCle)
        · have hxn : x ∈ g.nodes := by
            have := hwf a hag
            rwa [hfrom] at this
          by_cases hxu : x ∈ u
          · exact Or.inl (le_trans (le_trans (min_by_dist_le hmin x hxu) hC) hCle)
          · have hrel := hInv.solved_relaxed x hxn hxu a hag hfrom
            refine Or.inr (le_trans hrel ?_)
            calc (a.weight : WithTop ℚ) + dist σ x
                ≤ (a.weight : WithTop ℚ) + (C : WithTop ℚ) := add_le_add_left hC _
              _ = ((C + a.weight : ℚ) : WithTop ℚ) := by push_cast; exact add_comm _ _
      have := ih a.to_node n (C + a.weight) hrest hstep
      have harr : (C + a.weight) + pathWeight p = C + pathWeight (a :: p) := by
        simp [pathWeight]; ring
      rwa [harr] at this

/-- When `m` is selected as the minimal unvisited node, its recorded
distance is a lower bound on the weight of every path from the source. -/
theorem min_node_optimal {g : Network} {s m : String} {σ : SearchState} {u : List String}
    (hw : ∀ a ∈ g.arcs, 0 ≤ a.weight)
    (hwf : ∀ a ∈ g.arcs, a.from_node ∈ g.nodes)
    (hInv : Inv g s σ u) (hmin : min_by_dist σ u = some m) :
    ∀ p, IsPath g s p m → dist σ m ≤ (pathWeight p : WithTop ℚ) := by
  intro p hp
  have hsrc : dist σ s ≤ ((0 : ℚ) : WithTop ℚ) := by
    simpa using hInv.src
  have := crossing_aux hw hwf hInv hmin p s m 0 hp (Or.inr hsrc)
  rw [zero_add] at this
  rcases this with h | h
  · exact h
  · exact h

/-- One solving step preserves the invariant. -/
theorem Inv_step {g : Network} {s : String} {σ : SearchState} {u : List String} {m : String}
    (hw : ∀ a ∈ g.arcs, 0 ≤ a.weight)
    (hwf : ∀ a ∈ g.arcs, a.from_node ∈ g.nodes)
    (hInv : Inv g s σ u) (hmin : min_by_dist σ u = some m) :
    Inv g s (relax_arcs m σ (arcs_out g m)) (u.erase m) := by
  have hl : ∀ a ∈ arcs_out g m, a.from_node = m ∧ 0 ≤ a.weight := by
    intro a ha
    obtain ⟨hag, hfrom⟩ := arcs_out_spec a ha
    exact ⟨hfrom, hw a hag⟩
  have hmem := min_by_dist_mem hmin
  have hmle := min_by_dist_le hmin
  have hfrozen := relax_arcs_frozen hl σ
  have hm_eq : relax_arcs m σ (arcs_out g m) m = σ m := hfrozen m le_rfl
  have hsolved_eq : ∀ x ∈ g.nodes, x ∉ u → relax_arcs m σ (arcs_out g m) x = σ x := by
    intro x hx hxu
    exact hfrozen x (hInv.solved_min x hx hxu m hmem)
  refine ⟨hInv.nodup.erase m, ?_, ?_, ?_, ?_, ?_, ?_⟩
  · intro n hn
    exact hInv.sub n (List.mem_of_mem_erase hn)
  · exact le_trans (relax_arcs_dist_le m σ _ s) hInv.src
  · exact relax_arcs_reach (fun a ha => arcs_out_spec a ha) σ hInv.reach
  · -- solved_min
    intro x hx hxu' y hy'
    have hy : y ∈ u := List.mem_of_mem_erase hy'
    have hylower : dist σ m ≤ dist (relax_arcs m σ (arcs_out g m)) y :=
      relax_arcs_dist_lower hl σ y (hmle y hy)
    by_cases hxu : x ∈ u
    · have hxm : x = m := by
        by_contra hne
        exact hxu' ((List.mem_erase_of_ne hne).mpr hxu)
      subst hxm
      rw [dist_congr hm_eq]
      exact hylower
    · rw [dist_congr (hsolved_eq x hx hxu)]
      exact le_trans (hInv.solved_min x hx hxu m hmem) hylower
  · -- solved_relaxed
    intro x hx hxu' a hag hfrom
    by_cases hxu : x ∈ u
    · have hxm : x = m := by
        by_contra hne
        exact hxu' ((List.mem_erase_of_ne hne).mpr hxu)
      subst hxm
      have hrel := relax_arcs_relaxed hl σ a (mem_arcs_out hag hfrom)
      rw [dist_congr hm_eq]
      exact hrel
    · rw [dist_congr (hsolved_eq x hx hxu)]
      exact le_trans (relax_arcs_dist_le m σ _ a.to_node)
        (hInv.solved_relaxed x hx hxu a hag hfrom)
  · -- solved_opt
    intro x hx hxu' p hp
    by_cases hxu : x ∈ u
    · have hxm : x = m := by
        by_contra hne
        exact hxu' ((List.mem_erase_of_ne hne).mpr hxu)
      subst hxm
      rw [dist_congr hm_eq]
      exact min_node_optimal hw hwf hInv hmin p hp
    · rw [dist_congr (hsolved_eq x hx hxu)]
      exact hInv.solved_opt x hx hxu p hp

/-! ### Lemmas about the driver loop -/

theorem spath_loop_succ (g : Network) (d : String) (fuel : Nat) (σ : SearchState)
    (u : List String) :
    spath_loop g d (fuel + 1) σ u =
      match spath_iteration g σ u with
      | (none, σ', _) => (none, σ')
      | (some solved, σ', u') =>
          if solved = d then (some solved, σ') else spath_loop g d fuel σ' u' := rfl

/-- The loop's result does not depend on the fuel, once the fuel exceeds the
size of the unvisited set: the search performs at most `u.length` successful
relaxation steps. -/
theorem spath_loop_fuel_congr (g : Network) (d : String) :
    ∀ (f₁ f₂ : Nat) (σ : SearchState) (u : List String),
      u.length < f₁ → u.length < f₂ →
      spath_loop g d f₁ σ u = spath_loop g d f₂ σ u := by
  intro f₁
  induction f₁ with
  | zero => intro f₂ σ u h1 _; exact absurd h1 (Nat.not_lt_zero _)
  | succ f₁ ih =>
      intro f₂ σ u h1 h2
      cases f₂ with
      | zero => exact absurd h2 (Nat.not_lt_zero _)
      | succ f₂ =>
          rw [spath_loop_succ, spath_loop_succ]
          cases hit : min_by_dist σ u with
          | none => rw [spath_iteration_of_none hit]
          | some m =>
              rw [spath_iteration_of_min hit]
              by_cases hmd : m = d
              · simp [hmd]
              · simp only [if_neg hmd]
                have hmem := min_by_dist_mem hit
                have hlen : (u.erase m).length = u.length - 1 :=
                  List.length_erase_of_mem hmem
                have hpos : 1 ≤ u.length := by
                  cases u with
                  | nil => exact absurd hmem (List.not_mem_nil m)
                  | cons a l => simp
                apply ih
                · omega
                · omega

/-- With the invariant holding and the destination unvisited, the loop with
sufficient fuel always stops by solving the destination, and the invariant
holds for the final state, with the destination solved. -/
theorem spath_loop_solves {g : Network} {s d : String}
    (hw : ∀ a ∈ g.arcs, 0 ≤ a.weight)
    (hwf : ∀ a ∈ g.arcs, a.from_node ∈ g.nodes) :
    ∀ (fuel : Nat) (σ : SearchState) (u : List String),
      Inv g s σ u → d ∈ u → u.length < fuel →
      ∃ σ' u', spath_loop g d fuel σ u = (some d, σ') ∧ Inv g s σ' u' ∧ d ∉ u' := by
  intro fuel
  induction fuel with
  | zero => intro σ u _ _ h; exact absurd h (Nat.not_lt_zero _)
  | succ fuel ih =>
      intro σ u hInv hd hfuel
      cases hit : min_by_dist σ u with
      | none =>
          rw [min_by_dist_eq_none] at hit
          rw [hit] at hd
          exact absurd hd (List.not_mem_nil d)
      | some m =>
          have hInv' := Inv_step hw hwf hInv hit
          rw [spath_loop_succ, spath_iteration_of_min hit]
          by_cases hmd : m = d
          · subst hmd
            refine ⟨relax_arcs m σ (arcs_out g m), u.erase m, by simp, hInv', ?_⟩
            intro hmem'
            exact absurd ((hInv.nodup.mem_erase_iff.mp hmem').1) (by simp)
          · simp only [if_neg hmd]
            have hmem := min_by_dist_mem hit
            have hd' : d ∈ u.erase m :=
              (List.mem_erase_of_ne (fun h => hmd h.symm)).mpr hd
            have hlen : (u.erase m).length = u.length - 1 :=
              List.length_erase_of_mem hmem
            have hpos : 1 ≤ u.length := by
              cases u with
              | nil => exact absurd hmem (List.not_mem_nil m)
              | cons a l => simp
            exact ih _ _ hInv' hd' (by omega)

/-- When the destination name is not a node of the graph, the loop runs the
unvisited set down to empty and reports that no node was solved. -/
theorem spath_loop_exhausts {g : Network} {d : String} (hd : d ∉ g.nodes) :
    ∀ (fuel : Nat) (σ : SearchState) (u : List String),
      (∀ n ∈ u, n ∈ g.nodes) → u.length < fuel →
      ∃ σ', spath_loop g d fuel σ u = (none, σ') := by
  intro fuel
  induction fuel with
  | zero => intro σ u _ h; exact absurd h (Nat.not_lt_zero _)
  | succ fuel ih =>
      intro σ u hsub hfuel
      cases hit : min_by_dist σ u with
      | none =>
          rw [spath_loop_succ, spath_iteration_of_none hit]
          exact ⟨σ, rfl⟩
      | some m =>
          rw [spath_loop_succ, spath_iteration_of_min hit]
          have hmem := min_by_dist_mem hit
          have hmd : ¬ m = d := fun h => hd (h ▸ hsub m hmem)
          simp only [if_neg hmd]
          have hlen : (u.erase m).length = u.length - 1 :=
            List.length_erase_of_mem hmem
          have hpos : 1 ≤ u.length := by
            cases u with
            | nil => exact absurd hmem (List.not_mem_nil m)
            | cons a l => simp
          exact ih _ _ (fun n hn => hsub n (List.mem_of_mem_erase hn)) (by omega)

/-! ### Path extraction lemmas -/

theorem spath_extract_go_succ_none {σ : SearchState} {current : String} {path : List String}
    {fuel : Nat} (h : pred σ current = none) :
    spath_extract_go σ (fuel + 1) current path = path := by
  simp [spath_extract_go, h]

theorem spath_extract_path_of_pred_none {g : Network} {σ : SearchState} {d : String}
    (h : pred σ d = none) : spath_extract_path g σ d = [d] := by
  unfold spath_extract_path
  rw [spath_extract_go_succ_none h]
  rfl

/-! ### The search with an unknown source never changes any state -/

/-- Relaxing the out-arcs of a node whose distance is infinite changes
nothing: `inf + w = inf` is never strictly below any value. -/
theorem relax_arcs_top {σ : SearchState} {m : String} {l : List Arc}
    (hm : dist σ m = ⊤) (hl : ∀ a ∈ l, a.from_node = m) :
    relax_arcs m σ l = σ := by
  induction l with
  | nil => rfl
  | cons a l ih =>
      have hfrom : a.from_node = m := hl a (List.mem_cons_self a l)
      have hstep : relax_arc m σ a = σ := by
        apply relax_arc_of_not_lt
        rw [hfrom, hm, WithTop.add_top]
        exact not_top_lt
      rw [relax_arcs_cons, hstep]
      exact ih (fun b hb => hl b (List.mem_cons_of_mem a hb))

/-- With a source name absent from the graph every node starts at infinity,
no relaxation ever fires, and the loop solves nodes (in list order) at
distance infinity until it reaches the destination, with the state still the
initial one. -/
theorem spath_loop_unknown_source {g : Network} {s d : String}
    (hs : s ∉ g.nodes) :
    ∀ (fuel : Nat) (u : List String), (∀ n ∈ u, n ∈ g.nodes) → d ∈ u → u.length < fuel →
      spath_loop g d fuel (spath_initialise g s).1 u =
        (some d, (spath_initialise g s).1) := by
  intro fuel
  induction fuel with
  | zero => intro u _ _ h; exact absurd h (Nat.not_lt_zero _)
  | succ fuel ih =>
      intro u hsub hd hfuel
      cases hit : min_by_dist (spath_initialise g s).1 u with
      | none =>
          rw [min_by_dist_eq_none] at hit
          rw [hit] at hd
          exact absurd hd (List.not_mem_nil d)
      | some m =>
          have hmem := min_by_dist_mem hit
          have hms : m ≠ s := fun h => hs (h ▸ hsub m hmem)
          have htop : dist (spath_initialise g s).1 m = ⊤ := dist_initialise_ne g hms
          have hrel : relax_arcs m (spath_initialise g s).1 (arcs_out g m) =
              (spath_initialise g s).1 :=
            relax_arcs_top htop (fun a ha => (arcs_out_spec a ha).2)
          rw [spath_loop_succ, spath_iteration_of_min hit, hrel]
          by_cases hmd : m = d
          · simp [hmd]
          · simp only [if_neg hmd]
            have hd' : d ∈ u.erase m :=
              (List.mem_erase_of_ne (fun h => hmd h.symm)).mpr hd
            have hlen : (u.erase m).length = u.length - 1 :=
              List.length_erase_of_mem hmem
            have hpos : 1 ≤ u.length := by
              cases u with
              | nil => exact absurd hmem (List.not_mem_nil m)
              | cons a l => simp
            exact ih _ (fun n hn => hsub n (List.mem_of_mem_erase hn)) hd' (by omega)

/-! ### The sequence of states of a search -/

/-- The state and unvisited set after `k` calls to `spath_iteration`,
starting from the (spec-modelled) initial state of a search from `s`; the
run of `spath_algorithm` performs a prefix of this sequence.  Iterating past
exhaustion leaves everything unchanged. -/
def search_steps (g : Network) (s : String) : Nat → SearchState × List String
  | 0 => spath_initialise g s
  | k + 1 =>
      (spath_iteration g (search_steps g s k).1 (search_steps g s k).2).2

theorem iteration_dist_le (g : Network) (σ : SearchState) (u : List String) (n : String) :
    dist (spath_iteration g σ u).2.1 n ≤ dist σ n := by
  cases hit : min_by_dist σ u with
  | none => rw [spath_iteration_of_none hit]
  | some m =>
      rw [spath_iteration_of_min hit]
      exact relax_arcs_dist_le m σ _ n

theorem iteration_unvisited_sub (g : Network) (σ : SearchState) (u : List String) :
    ∀ n ∈ (spath_iteration g σ u).2.2, n ∈ u := by
  cases hit : min_by_dist σ u with
  | none => rw [spath_iteration_of_none hit]; exact fun n hn => hn
  | some m =>
      rw [spath_iteration_of_min hit]
      exact fun n hn => List.mem_of_mem_erase hn

/-- Once solved (with non-negative weights), a node's whole value survives
one more iteration untouched. -/
theorem iteration_frozen {g : Network} {s : String} {σ : SearchState} {u : List String}
    (hw : ∀ a ∈ g.arcs, 0 ≤ a.weight) (hInv : Inv g s σ u)
    {x : String} (hx : x ∈ g.nodes) (hxu : x ∉ u) :
    (spath_iteration g σ u).2.1 x = σ x := by
  cases hit : min_by_dist σ u with
  | none => rw [spath_iteration_of_none hit]
  | some m =>
      rw [spath_iteration_of_min hit]
      have hl : ∀ a ∈ arcs_out g m, a.from_node = m ∧ 0 ≤ a.weight := by
        intro a ha
        obtain ⟨hag, hfrom⟩ := arcs_out_spec a ha
        exact ⟨hfrom, hw a hag⟩
      exact relax_arcs_frozen hl σ x
        (hInv.solved_min x hx hxu m (min_by_dist_mem hit))

theorem Inv_search_steps (g : Network) (s : String) (hnd : g.nodes.Nodup)
    (hw : ∀ a ∈ g.arcs, 0 ≤ a.weight)
    (hwf : ∀ a ∈ g.arcs, a.from_node ∈ g.nodes) :
    ∀ k, Inv g s (search_steps g s k).1 (search_steps g s k).2 := by
  intro k
  induction k with
  | zero => exact Inv_init g s hnd
  | succ k ih =>
      show Inv g s (spath_iteration g _ _).2.1 (spath_iteration g _ _).2.2
      cases hit : min_by_dist (search_steps g s k).1 (search_steps g s k).2 with
      | none => rw [spath_iteration_of_none hit]; exact ih
      | some m => rw [spath_iteration_of_min hit]; exact Inv_step hw hwf ih hit

theorem search_steps_not_mem (g : Network) (s : String) {n : String} :
    ∀ {k j : Nat}, k ≤ j → n ∉ (search_steps g s k).2 → n ∉ (search_steps g s j).2 := by
  intro k j hkj
  induction j, hkj using Nat.le_induction with
  | base => exact fun h => h
  | succ j _ ih =>
      intro hk hj
      exact ih hk (iteration_unvisited_sub g _ _ n hj)

/-! ### The driver as a whole -/

theorem spath_algorithm_eq (g : Network) (s d : String) :
    spath_algorithm g s d =
      match spath_loop g d (g.nodes.length + 1) (spath_initialise g s).1 g.nodes with
      | (none, _) => (none, none)
      | (some _, σ) => (some (dist σ d), some (spath_extract_path g σ d)) := rfl

/-! ### Concrete networks used as witnesses and counterexamples -/

/-- The concrete scenario of spec section 8: nodes A, B, C, D and arcs
A→B(1), A→C(4), B→C(2), B→D(5), C→D(1). -/
def exampleNetwork : Network :=
  { nodes := ["A", "B", "C", "D"],
    arcs := [⟨1, "A", "B"⟩, ⟨4, "A", "C"⟩, ⟨2, "B", "C"⟩, ⟨5, "B", "D"⟩, ⟨1, "C", "D"⟩] }

/-- Two isolated nodes; B is unreachable from A. -/
def twoNodeNetwork : Network := { nodes := ["A", "B"], arcs := [] }

/-- A single isolated node. -/
def oneNodeNetwork : Network := { nodes := ["A"], arcs := [] }

/-- The (spec-modelled) initial search state of `twoNodeNetwork` from A. -/
def initAB : SearchState := (spath_initialise twoNodeNetwork "A").1

/-! ### Model of the module's top-level namespace (for C9) -/

/-- The names bound at the top level by executing
src/dijkstras_shortest_path.py: the import statement binds `np` (line 2)
and the three function and three class definitions bind their names
(lines 5, 53, 91, 135, 164, 187).  No other top-level statement binds a
name; in particular no statement defines `spath_initialise`, and Python's
builtins do not provide it either, so resolving that name raises
`NameError`. -/
def module_top_level_names : List String :=
  ["np", "spath_iteration", "spath_extract_path", "spath_algorithm",
   "Node", "Arc", "Network"]

/-- The function name referenced by the first statement of the body of
`spath_algorithm` (line 111: `unvisited_set = spath_initialise(network,
source_name)`), which Python resolves before any search work is done. -/
def spath_algorithm_first_call : String := "spath_initialise"

/-! ### Claims -/

/-- C9: the first statement of `spath_algorithm` calls `spath_initialise`,
a name that no top-level statement of the source module binds (and that is
no Python builtin), so under Python's name resolution every invocation of
`spath_algorithm` raises a `NameError` before any search work is done. -/
theorem C9_spath_initialise_not_defined :
    spath_algorithm_first_call ∉ module_top_level_names := by decide

/-- C10: for a destination node of the graph whose recorded predecessor is
`None` (in particular one never solved by the search), `spath_extract_path`
does not fail: the predecessor-chasing loop exits immediately and the
result is the one-element list holding the destination name. -/
theorem C10_extract_path_of_no_predecessor (g : Network) (σ : SearchState)
    (d : String) (hd : d ∈ g.nodes) (h : pred σ d = none) :
    spath_extract_path g σ d = [d] :=
  spath_extract_path_of_pred_none h

theorem C10_witness :
    spath_extract_path twoNodeNetwork initAB "B" = ["B"] :=
  C10_extract_path_of_no_predecessor twoNodeNetwork initAB "B" (by decide) rfl

/-- C3: the claim fails on the code.  In `twoNodeNetwork` with source A,
after A is solved the remaining unvisited node B has tentative distance
+infinity; the claim says the next `spath_iteration` returns `None` and
removes nothing, but the code has no infinity check (the `except
ValueError` of lines 25-26 never fires on a nonempty set), so it solves B
anyway: it returns B's name and removes B from the unvisited set (the
state is unchanged only because B has no outgoing arcs).  The empty-set
half of the claim does hold (third conjunct). -/
theorem C3_min_at_infinity_is_still_solved :
    dist initAB "B" = ⊤ ∧
    spath_iteration twoNodeNetwork initAB ["B"] = (some "B", initAB, []) ∧
    spath_iteration twoNodeNetwork initAB [] = (none, initAB, []) :=
  ⟨rfl, rfl, rfl⟩

/-- C6: the claim fails on the code.  In `twoNodeNetwork` no directed path
leads from A to B (first conjunct), yet `spath_algorithm` does not return
`(None, None)`: because `spath_iteration` also solves nodes at distance
+infinity (see C3), B itself is eventually "solved", the loop exits with
the destination matched, and the call returns distance +infinity and path
`[B]`, contradicting the function's own docstring (lines 104-108: return
`None` when no solution was found). -/
theorem C6_unreachable_destination_not_none :
    (∀ p, ¬ IsPath twoNodeNetwork "A" p "B") ∧
    spath_algorithm twoNodeNetwork "A" "B" = (some ⊤, some ["B"]) := by
  constructor
  · intro p hp
    cases p with
    | nil => exact absurd hp (by decide)
    | cons a q => exact absurd hp.1 (List.not_mem_nil a)
  · rfl

/-- C7, counterexample: `spath_algorithm` called with a destination name
absent from the graph does not fail with any typed error: it runs the
unvisited set down and returns the ordinary no-result pair `(None, None)`
(no `UnknownNodeError` exists anywhere in the source). -/
theorem C7_counterexample_returns_no_result :
    ("Z" ∉ oneNodeNetwork.nodes) ∧
    spath_algorithm oneNodeNetwork "A" "Z" = (none, none) :=
  ⟨by decide, rfl⟩

/-- C7, amended: calls naming an unknown node do not fail with a typed
`UnknownNodeError` (none exists in the program) nor crash; with the
spec-modelled initialisation, an unknown destination makes the search
exhaust the unvisited set and return `(None, None)`, while an unknown
source (with a known destination) leaves every distance at +infinity and
returns distance +infinity with the single-node path `[destination]`. -/
theorem C7_amended_unknown_node_no_typed_error (g : Network) (s d : String) :
    (d ∉ g.nodes → spath_algorithm g s d = (none, none)) ∧
    (s ∉ g.nodes → d ∈ g.nodes → spath_algorithm g s d = (some ⊤, some [d])) := by
  constructor
  · intro hd
    obtain ⟨σ', hloop⟩ := spath_loop_exhausts hd (g.nodes.length + 1)
      (spath_initialise g s).1 g.nodes (fun n hn => hn) (Nat.lt_succ_self _)
    rw [spath_algorithm_eq, hloop]
  · intro hs hd
    have hloop := spath_loop_unknown_source hs (g.nodes.length + 1) g.nodes
      (fun n hn => hn) hd (Nat.lt_succ_self _)
    rw [spath_algorithm_eq, hloop]
    have hds : d ≠ s := fun h => hs (h ▸ hd)
    have htop : dist (spath_initialise g s).1 d = ⊤ := dist_initialise_ne g hds
    have hpred : pred (spath_initialise g s).1 d = none := rfl
    show (some (dist (spath_initialise g s).1 d),
        some (spath_extract_path g (spath_initialise g s).1 d)) = (some ⊤, some [d])
    rw [spath_extract_path_of_pred_none hpred, htop]

theorem C7_witness :
    spath_algorithm oneNodeNetwork "Z" "A" = (some ⊤, some ["A"]) :=
  (C7_amended_unknown_node_no_typed_error oneNodeNetwork "Z" "A").2
    (by decide) (by decide)

/-- C2: whenever `spath_iteration` solves a node `m`, the state it returns
is the fold of single-arc relaxations over `m`'s outgoing arcs (all of
which leave `m`), and each single-arc relaxation, from any intermediate
state `τ`, computes the candidate `dist τ m + w` and updates the target
node's distance and predecessor to the candidate and `m`'s name exactly
when the candidate is strictly below the target's current distance
(leaving all other nodes untouched); when it is not strictly below — in
particular on ties — nothing at all changes. -/
theorem C2_relaxation_update_rule (g : Network) (σ τ : SearchState)
    (u : List String) (m : String) (σ' : SearchState) (u' : List String)
    (h : spath_iteration g σ u = (some m, σ', u')) :
    σ' = relax_arcs m σ (arcs_out g m) ∧
    (∀ a ∈ arcs_out g m, a.from_node = m) ∧
    (∀ a : Arc, a.from_node = m →
      (dist τ m + (a.weight : WithTop ℚ) < dist τ a.to_node →
        relax_arc m τ a a.to_node = (dist τ m + (a.weight : WithTop ℚ), some m) ∧
        ∀ n, n ≠ a.to_node → relax_arc m τ a n = τ n) ∧
      (¬ dist τ m + (a.weight : WithTop ℚ) < dist τ a.to_node →
        relax_arc m τ a = τ) ∧
      (dist τ m + (a.weight : WithTop ℚ) = dist τ a.to_node →
        relax_arc m τ a = τ)) := by
  have hσ' : σ' = relax_arcs m σ (arcs_out g m) := by
    cases hit : min_by_dist σ u with
    | none => rw [spath_iteration_of_none hit] at h; simp at h
    | some m0 =>
        rw [spath_iteration_of_min hit] at h
        simp only [Prod.mk.injEq, Option.some.injEq] at h
        obtain ⟨hm, hσ, _⟩ := h
        subst hm
        exact hσ.symm
  refine ⟨hσ', fun a ha => (arcs_out_spec a ha).2, ?_⟩
  intro a hfrom
  have hc : (a.weight : WithTop ℚ) + dist τ a.from_node
      = dist τ m + (a.weight : WithTop ℚ) := by
    rw [hfrom]; exact add_comm _ _
  refine ⟨?_, ?_, ?_⟩
  · intro hlt
    have hlt' : (a.weight : WithTop ℚ) + dist τ a.from_node < dist τ a.to_node := by
      rw [hc]; exact hlt
    constructor
    · rw [relax_arc_apply_to_of_lt hlt', hc]
    · intro n hn; exact relax_arc_apply_ne hn
  · intro hnlt
    apply relax_arc_of_not_lt
    rw [hc]; exact hnlt
  · intro heq
    apply relax_arc_of_not_lt
    rw [hc, heq]
    exact lt_irrefl _

theorem C2_witness :
    initAB = relax_arcs "A" initAB (arcs_out twoNodeNetwork "A") :=
  (C2_relaxation_update_rule twoNodeNetwork initAB initAB
    ["A", "B"] "A" initAB ["B"] rfl).1

/-- C5: for any graph containing `s` (with the spec's standing precondition
of non-negative arc weights), searching from `s` to `s` itself returns
distance 0 and the single-node path `[s]`: the first iteration solves `s`
(the unique node at distance 0, all others starting at +infinity), the
loop exits at once, relaxation cannot improve on 0 with non-negative
weights, and extraction from a predecessor-free node yields `[s]`. -/
theorem C5_source_equals_destination (g : Network) (s : String)
    (hs : s ∈ g.nodes) (hw : ∀ a ∈ g.arcs, 0 ≤ a.weight) :
    spath_algorithm g s s = (some 0, some [s]) := by
  have hzero_lt_top : (0 : WithTop ℚ) < ⊤ := by
    rw [← WithTop.coe_zero]
    exact WithTop.coe_lt_top (0 : ℚ)
  have hmin : min_by_dist (spath_initialise g s).1 g.nodes = some s := by
    apply min_by_dist_strict hs
    intro z _ hne
    rw [dist_initialise_self, dist_initialise_ne g hne]
    exact hzero_lt_top
  have hloop : spath_loop g s (g.nodes.length + 1) (spath_initialise g s).1 g.nodes =
      (some s, relax_arcs s (spath_initialise g s).1 (arcs_out g s)) := by
    rw [spath_loop_succ, spath_iteration_of_min hmin]
    simp
  have hl : ∀ a ∈ arcs_out g s, a.from_node = s ∧ 0 ≤ a.weight := by
    intro a ha
    obtain ⟨hag, hfrom⟩ := arcs_out_spec a ha
    exact ⟨hfrom, hw a hag⟩
  have hfro : relax_arcs s (spath_initialise g s).1 (arcs_out g s) s =
      (spath_initialise g s).1 s :=
    relax_arcs_frozen hl (spath_initialise g s).1 s le_rfl
  have hself : (spath_initialise g s).1 s = ((0 : WithTop ℚ), none) := by
    simp [spath_initialise]
  rw [spath_algorithm_eq, hloop]
  show (some (dist (relax_arcs s (spath_initialise g s).1 (arcs_out g s)) s),
      some (spath_extract_path g (relax_arcs s (spath_initialise g s).1 (arcs_out g s)) s))
    = (some 0, some [s])
  have hdist : dist (relax_arcs s (spath_initialise g s).1 (arcs_out g s)) s = 0 := by
    rw [dist_congr hfro, dist_initialise_self]
  have hpred : pred (relax_arcs s (spath_initialise g s).1 (arcs_out g s)) s = none := by
    rw [pred, hfro, hself]
  rw [hdist, spath_extract_path_of_pred_none hpred]

theorem C5_witness : spath_algorithm oneNodeNetwork "A" "A" = (some 0, some ["A"]) :=
  C5_source_equals_destination oneNodeNetwork "A" (by decide) (by decide)

/-- C8: every call terminates after at most |nodes| relaxation steps: the
unvisited set starts as exactly the graph's node name list, every
successful `spath_iteration` returns a member of the unvisited set and
removes exactly that one name from it, and the loop's result is already
final with fuel |nodes| + 1 — larger fuel never changes it, so the driver
(which runs with fuel |nodes| + 1) performs at most |nodes| successful
relaxation steps before stopping. -/
theorem C8_terminates_in_at_most_node_count_steps (g : Network) (s d : String) :
    (spath_initialise g s).2 = g.nodes ∧
    (∀ (σ σ' : SearchState) (u u' : List String) (m : String),
      spath_iteration g σ u = (some m, σ', u') →
      m ∈ u ∧ u' = u.erase m ∧ u'.length + 1 = u.length) ∧
    (∀ (fuel : Nat) (σ : SearchState), g.nodes.length < fuel →
      spath_loop g d fuel σ g.nodes = spath_loop g d (g.nodes.length + 1) σ g.nodes) := by
  refine ⟨rfl, ?_, ?_⟩
  · intro σ σ' u u' m h
    cases hit : min_by_dist σ u with
    | none => rw [spath_iteration_of_none hit] at h; simp at h
    | some m0 =>
        rw [spath_iteration_of_min hit] at h
        simp only [Prod.mk.injEq, Option.some.injEq] at h
        obtain ⟨hm, _, hu⟩ := h
        subst hm
        have hmem := min_by_dist_mem hit
        refine ⟨hmem, hu.symm, ?_⟩
        rw [hu.symm, List.length_erase_of_mem hmem]
        have : 1 ≤ u.length := by
          cases u with
          | nil => exact absurd hmem (List.not_mem_nil _)
          | cons a l => simp
        omega
  · intro fuel σ hfuel
    exact spath_loop_fuel_congr g d fuel (g.nodes.length + 1) σ g.nodes hfuel
      (Nat.lt_succ_self _)

theorem C8_witness :
    spath_loop twoNodeNetwork "B" 17 initAB twoNodeNetwork.nodes =
      spath_loop twoNodeNetwork "B" (twoNodeNetwork.nodes.length + 1)
        initAB twoNodeNetwork.nodes :=
  (C8_terminates_in_at_most_node_count_steps twoNodeNetwork "A" "B").2.2 17 initAB
    (by decide)

/-- C4: along the iteration sequence of a search from `s` over a
well-formed graph (unique node names, arc tails in the graph) with
non-negative arc weights, every node's tentative distance is monotonically
non-increasing from each relaxation step to the next, and once a graph
node has left the unvisited set its whole value — tentative distance and
predecessor — is identical at every later step. -/
theorem C4_distances_monotone_and_solved_final (g : Network) (s : String)
    (hnd : g.nodes.Nodup) (hw : ∀ a ∈ g.arcs, 0 ≤ a.weight)
    (hwf : ∀ a ∈ g.arcs, a.from_node ∈ g.nodes) :
    ∀ (k : Nat) (n : String),
      dist (search_steps g s (k + 1)).1 n ≤ dist (search_steps g s k).1 n ∧
      (n ∈ g.nodes → n ∉ (search_steps g s k).2 →
        ∀ j, k ≤ j → (search_steps g s j).1 n = (search_steps g s k).1 n) := by
  intro k n
  constructor
  · exact iteration_dist_le g (search_steps g s k).1 (search_steps g s k).2 n
  · intro hn hk j hkj
    induction j, hkj using Nat.le_induction with
    | base => rfl
    | succ j hkj ih =>
        have hnotj : n ∉ (search_steps g s j).2 := search_steps_not_mem g s hkj hk
        have hfro : (search_steps g s (j + 1)).1 n = (search_steps g s j).1 n :=
          iteration_frozen hw (Inv_search_steps g s hnd hw hwf j) hn hnotj
        rw [hfro, ih]

theorem C4_witness :
    (dist (search_steps twoNodeNetwork "A" 1).1 "A" ≤
      dist (search_steps twoNodeNetwork "A" 0).1 "A") ∧
    ("A" ∈ twoNodeNetwork.nodes → "A" ∉ (search_steps twoNodeNetwork "A" 1).2 →
      ∀ j, 1 ≤ j →
        (search_steps twoNodeNetwork "A" j).1 "A" =
          (search_steps twoNodeNetwork "A" 1).1 "A") :=
  C4_distances_monotone_and_solved_final twoNodeNetwork "A"
    (by decide) (by decide) (by decide) 1 "A"

/-- C1: on a well-formed graph (unique node names, arc tails in the graph)
with non-negative arc weights, whose node list contains the destination
and in which some directed path joins source to destination, the distance
returned by `spath_algorithm` is finite and equals the minimum total arc
weight over all directed paths from source to destination: it is the
weight of an actual path and a lower bound on the weight of every path. -/
theorem C1_returns_minimum_path_weight (g : Network) (s d : String)
    (hnd : g.nodes.Nodup) (hw : ∀ a ∈ g.arcs, 0 ≤ a.weight)
    (hwf : ∀ a ∈ g.arcs, a.from_node ∈ g.nodes)
    (hd : d ∈ g.nodes) (hex : ∃ p, IsPath g s p d) :
    ∃ w₀ : ℚ, (spath_algorithm g s d).1 = some (w₀ : WithTop ℚ) ∧
      (∃ p, IsPath g s p d ∧ pathWeight p = w₀) ∧
      (∀ p, IsPath g s p d → w₀ ≤ pathWeight p) := by
  obtain ⟨p₀, hp₀⟩ := hex
  have hInv0 := Inv_init g s hnd
  obtain ⟨σf, uf, hloop, hInvf, hdf⟩ :=
    spath_loop_solves hw hwf (g.nodes.length + 1) (spath_initialise g s).1
      (spath_initialise g s).2 hInv0 hd (Nat.lt_succ_self _)
  have hopt : ∀ p, IsPath g s p d → dist σf d ≤ (pathWeight p : WithTop ℚ) :=
    fun p hp => hInvf.solved_opt d hd hdf p hp
  have hfin : dist σf d ≠ ⊤ := by
    intro htop
    have := hopt p₀ hp₀
    rw [htop] at this
    exact absurd (le_antisymm le_top this) WithTop.coe_ne_top
  obtain ⟨p₁, hp₁, hw₁⟩ := hInvf.reach d hfin
  have hloop' : spath_loop g d (g.nodes.length + 1) (spath_initialise g s).1 g.nodes =
      (some d, σf) := hloop
  refine ⟨pathWeight p₁, ?_, ⟨p₁, hp₁, rfl⟩, ?_⟩
  · rw [spath_algorithm_eq, hloop']
    show some (dist σf d) = some ((pathWeight p₁ : ℚ) : WithTop ℚ)
    rw [hw₁]
  · intro p hp
    have := hopt p hp
    rw [← hw₁] at this
    exact_mod_cast this

theorem C1_witness :
    ∃ w₀ : ℚ, (spath_algorithm exampleNetwork "A" "D").1 = some (w₀ : WithTop ℚ) ∧
      (∃ p, IsPath exampleNetwork "A" p "D" ∧ pathWeight p = w₀) ∧
      (∀ p, IsPath exampleNetwork "A" p "D" → w₀ ≤ pathWeight p) :=
  C1_returns_minimum_path_weight exampleNetwork "A" "D"
    (by decide) (by decide) (by decide) (by decide)
    ⟨[⟨1, "A", "B"⟩, ⟨2, "B", "C"⟩, ⟨1, "C", "D"⟩], by decide⟩

end DijkstraSP
